import Mathlib

/-!
Verification of the ccat highlighting core (src/lib.rs, src/main.rs).

The grammar catalog, theme catalog and per-line tokenizer come from an
external engine; they are modelled abstractly as record fields.  Everything
the repository itself computes — extension extraction (Rust
`Path::extension` semantics), the extension override table, the detection
cascade `detect_syntax`, the highlighting loop of `highlight_content`, and
the line-number formatting — is embedded as executable Lean functions.
-/

namespace Ccat

/-- Split a character list on the separator character, keeping empty
segments, as `str::split` on a single char does.  Models splitting a Unix
path on the slash separator. -/
def splitSlash : List Char → List (List Char)
  | [] => [[]]
  | c :: rest =>
    if c = '/' then [] :: splitSlash rest
    else
      match splitSlash rest with
      | [] => [[c]]
      | s :: ss => (c :: s) :: ss

/-- Rust `Path::file_name` on a Unix path: the final component after
dropping empty and current-dir components; none for an empty path, a root
path, or a path terminating in a parent-dir component. -/
def fileName (p : String) : Option (List Char) :=
  match ((splitSlash p.toList).filter (fun s => s != [] && s != ['.'])).getLast? with
  | none => none
  | some s => if s = ['.', '.'] then none else some s

/-- Rust `Path::extension` on a file name (the `split_file_at_dot` logic):
the characters after the last dot, provided there is a dot and it is not
the leading character.  The `..` file name never reaches this function
because `fileName` already maps it to `none`. -/
def extFromName (cs : List Char) : Option (List Char) :=
  let revAfter := cs.reverse.takeWhile (fun ch => ch != '.')
  if revAfter.length = cs.length then none
  else if cs.length = revAfter.length + 1 then none
  else some revAfter.reverse

/-- The extension string used by both `detect_syntax` in lib.rs and the
inline detection in main.rs:
`Path::new(file_path).extension().and_then(to_str).unwrap_or("")`. -/
def extensionOf (p : String) : String :=
  match (fileName p).bind extFromName with
  | none => ""
  | some e => String.mk e

/-- The static extension override table of `get_custom_mappings` in
lib.rs, in source order.  All keys are distinct, so association-list
lookup agrees with the Rust `HashMap`. -/
def get_custom_mappings : List (String × String) :=
  [("c", "C"), ("h", "C"), ("cpp", "C++"), ("cxx", "C++"), ("cc", "C++"),
   ("hpp", "C++"), ("hxx", "C++"), ("java", "Java"), ("py", "Python"),
   ("js", "JavaScript"), ("ts", "TypeScript"), ("rs", "Rust"), ("go", "Go"),
   ("php", "PHP"), ("rb", "Ruby"), ("cs", "C#"), ("html", "HTML"),
   ("css", "CSS"), ("xml", "XML"), ("json", "JSON"), ("yaml", "YAML"),
   ("yml", "YAML"), ("md", "Markdown"), ("sh", "Bash"), ("bash", "Bash"),
   ("zsh", "Bash"), ("fish", "Fish"), ("ps1", "PowerShell"), ("sql", "SQL"),
   ("r", "R"), ("R", "R"), ("lua", "Lua"), ("vim", "VimL"),
   ("dockerfile", "Dockerfile"), ("toml", "TOML"), ("ini", "INI"),
   ("cfg", "INI"), ("conf", "INI")]

/-- The catalog interface of the external grammar engine used by the
repository: name lookup, extension lookup, first-line detection and the
plain-text grammar.  `G` is the abstract type of grammars. -/
structure SyntaxSet (G : Type) where
  find_syntax_by_name : String → Option G
  find_syntax_by_extension : String → Option G
  find_syntax_by_first_line : String → Option G
  find_syntax_plain_text : G

variable {G T S Sty : Type}

/-- `SyntaxHighlighter::detect_syntax` from lib.rs: override table first
(only when the mapped name exists in the catalog), then extension lookup,
then first-line detection, then plain text. -/
def detect_syntax (ss : SyntaxSet G) (content file_path : String) : G :=
  let extension := extensionOf file_path
  match (List.lookup extension get_custom_mappings).bind ss.find_syntax_by_name with
  | some s => s
  | none =>
    match ss.find_syntax_by_extension extension with
    | some s => s
    | none =>
      match ss.find_syntax_by_first_line content with
      | some s => s
      | none => ss.find_syntax_plain_text

/-- The inline detection in `main` from main.rs: extension lookup, then
first-line detection, then plain text — with no override-table step. -/
def main_detect (ss : SyntaxSet G) (content file_path : String) : G :=
  match ss.find_syntax_by_extension (extensionOf file_path) with
  | some s => s
  | none =>
    match ss.find_syntax_by_first_line content with
    | some s => s
    | none => ss.find_syntax_plain_text

/-- `HighlighterConfig` from lib.rs. -/
structure HighlighterConfig where
  theme : String
  show_line_numbers : Bool
  force_syntax : Option String

/-- The full highlighter: the catalog plus the abstract tokenizer contract
(`HighlightLines::new`, `highlight_line`, `as_24_bit_terminal_escaped`).
`T` is the type of themes, `S` the opaque parse state, `Sty` the style
type of token runs. -/
structure Highlighter (G T S Sty : Type) where
  syntax_set : SyntaxSet G
  themes : String → Option T
  new_highlight_lines : G → T → S
  highlight_line : S → String → Option (S × List (Sty × String))
  escape_ranges : List (Sty × String) → String

/-- `syntect::util::LinesWithEndings`: split into lines, each keeping its
trailing newline; empty input yields no lines.  Accumulator holds the
current line reversed. -/
def linesWEAux : List Char → List Char → List String
  | acc, [] => if acc.isEmpty then [] else [String.mk acc.reverse]
  | acc, c :: rest =>
    if c = '\n' then String.mk (acc.reverse ++ [c]) :: linesWEAux [] rest
    else linesWEAux (c :: acc) rest

def linesWithEndings (s : String) : List String :=
  linesWEAux [] s.toList

/-- Right-align a string with spaces to a minimum width of 4, the
behaviour of the width-4 format specifier used in lib.rs. -/
def padLeft4 (s : String) : String :=
  String.mk (List.replicate (4 - s.length) ' ') ++ s

/-- The line-number prefix of lib.rs: the number right-aligned in a
minimum field of 4, then a space, a bar and a space. -/
def formatLineNum (n : Nat) : String :=
  padLeft4 (Nat.repr n) ++ " | "

/-- The per-line escaped payloads of one highlighting run: thread the
parse state through `highlight_line` and escape each line's ranges; fails
when any line fails to tokenize. -/
def tokenize_lines (hl : Highlighter G T S Sty) : S → List String → Option (List String)
  | _, [] => some []
  | st, l :: ls =>
    match hl.highlight_line st l with
    | none => none
    | some (st2, ranges) =>
      match tokenize_lines hl st2 ls with
      | none => none
      | some rest => some (hl.escape_ranges ranges :: rest)

/-- The highlighting loop of `highlight_content`: for each line, tokenize
against the running state, optionally prepend the line-number prefix, and
append the escaped ranges; a tokenization failure aborts the whole run. -/
def run_lines (hl : Highlighter G T S Sty) (show_nums : Bool) : S → Nat → List String → Except String String
  | _, _, [] => Except.ok ""
  | st, idx, l :: ls =>
    match hl.highlight_line st l with
    | none => Except.error "Failed to highlight line"
    | some (st2, ranges) =>
      match run_lines hl show_nums st2 (idx + 1) ls with
      | Except.error e => Except.error e
      | Except.ok rest =>
        Except.ok ((if show_nums then formatLineNum (idx + 1) else "") ++ hl.escape_ranges ranges ++ rest)

/-- `SyntaxHighlighter::highlight_content` from lib.rs: theme lookup
first, then forced-name lookup or automatic detection, then the per-line
highlighting loop. -/
def highlight_content (hl : Highlighter G T S Sty) (content file_path : String) (config : HighlighterConfig) : Except String String :=
  match hl.themes config.theme with
  | none => Except.error ("Theme " ++ config.theme ++ " not found")
  | some theme =>
    match config.force_syntax with
    | some syntax_name =>
      match hl.syntax_set.find_syntax_by_name syntax_name with
      | none => Except.error ("Syntax " ++ syntax_name ++ " not found")
      | some syn =>
        run_lines hl config.show_line_numbers (hl.new_highlight_lines syn theme) 0 (linesWithEndings content)
    | none =>
      run_lines hl config.show_line_numbers
        (hl.new_highlight_lines ( detect_syntax hl.syntax_set content file_path) theme) 0
        (linesWithEndings content)

/-- Concatenation of a list of strings, head first. -/
def concatAll : List String → String
  | [] => ""
  | s :: rest => s ++ concatAll rest

/-- The extension extraction exactly as the spec words it: the text after
the last dot in the final path segment (the text after the last slash),
the empty string when there is no dot, converted to lower case. -/
def spec_extension (p : String) : String :=
  let seg := (splitSlash p.toList).getLastD []
  if seg.contains '.' then
    String.mk (((seg.reverse.takeWhile (fun ch => ch != '.')).reverse).map Char.toLower)
  else ""

/-- The amended reading of the extension extraction: the extension comes
from the file name — the final path segment after ignoring empty and
current-dir components, with no file name for an empty or root path or one
ending in a parent-dir component — and is the text after the file name's
last dot provided that dot is not its leading character, otherwise empty;
it is used as-is, with no case conversion. -/
def amended_extension (p : String) : String :=
  match ((splitSlash p.toList).filter (fun s => s != [] && s != ['.'])).getLast? with
  | none => ""
  | some seg =>
    if seg = ['.', '.'] then ""
    else
      match seg with
      | [] => ""
      | _ :: rest =>
        if rest.contains '.' then
          String.mk ((rest.reverse.takeWhile (fun ch => ch != '.')).reverse)
        else ""

/-- A small concrete catalog over `G := String` used to instantiate the
universally quantified theorems on concrete inputs. -/
def ssEx : SyntaxSet String where
  find_syntax_by_name := fun n =>
    if n = "Python" then some "PythonG" else if n = "INI" then some "IniG" else none
  find_syntax_by_extension := fun e => if e = "rs" then some "RustG" else none
  find_syntax_by_first_line := fun c => if c = "#!sh" then some "BashG" else none
  find_syntax_plain_text := "PlainG"

/-- A small concrete highlighter over the concrete catalog: the parse
state counts lines, each line becomes one run, and escaping wraps the
run's text in angle brackets. -/
def hlEx : Highlighter String String Nat Unit where
  syntax_set := ssEx
  themes := fun t => if t = "dark" then some "DARK" else none
  new_highlight_lines := fun _ _ => 0
  highlight_line := fun st l => some (st + 1, [((), l)])
  escape_ranges := fun rs => concatAll (rs.map (fun r => "<" ++ r.2 ++ ">"))

end Ccat

namespace Ccat

variable {G T S Sty : Type}

lemma takeWhile_length_lt {α : Type} {p : α → Bool} :
    ∀ {l : List α} {x : α}, x ∈ l → p x = false → (l.takeWhile p).length < l.length := by
  intro l
  induction l with
  | nil => intro x hx; cases hx
  | cons a as ih =>
    intro x hx hpx
    by_cases hpa : p a
    · rw [List.takeWhile_cons_of_pos hpa]
      have hxas : x ∈ as := by
        rcases List.mem_cons.mp hx with h | h
        · subst h; rw [hpa] at hpx; cases hpx
        · exact h
      simpa using Nat.succ_lt_succ (ih hxas hpx)
    · rw [List.takeWhile_cons_of_neg hpa]
      simp

lemma mem_of_contains {l : List Char} {c : Char} (h : l.contains c = true) : c ∈ l := by
  simpa using h

lemma not_mem_of_not_contains {l : List Char} {c : Char} (h : ¬ l.contains c = true) : ¬ c ∈ l := by
  simpa using h

/-- `extFromName` on a nonempty file name: an extension exists exactly
when the tail contains a dot, and it is the text after the last dot. -/
lemma extFromName_cons (c : Char) (rest : List Char) :
    extFromName (c :: rest) =
      if rest.contains '.' then
        some ((rest.reverse.takeWhile (fun ch => ch != '.')).reverse)
      else none := by
  by_cases hc : rest.contains '.'
  · have hmem : ('.' : Char) ∈ rest.reverse := List.mem_reverse.mpr (mem_of_contains hc)
    have hlt : (rest.reverse.takeWhile (fun ch => ch != '.')).length < rest.reverse.length :=
      takeWhile_length_lt hmem (by decide)
    rw [List.length_reverse] at hlt
    have happ : ((c :: rest).reverse).takeWhile (fun ch => ch != '.') =
        rest.reverse.takeWhile (fun ch => ch != '.') := by
      rw [List.reverse_cons, List.takeWhile_append]
      exact if_neg (by rw [List.length_reverse]; omega)
    simp only [extFromName, happ]
    rw [if_neg (by simp only [List.length_cons]; omega),
        if_neg (by simp only [List.length_cons]; omega), if_pos hc]
  · have hall : rest.reverse.takeWhile (fun ch => ch != '.') = rest.reverse := by
      apply List.takeWhile_eq_self_iff.mpr
      intro x hx
      have hne : ¬ x = '.' := by
        intro hxeq
        subst hxeq
        exact (not_mem_of_not_contains hc) (List.mem_reverse.mp hx)
      simpa using hne
    have happ : ((c :: rest).reverse).takeWhile (fun ch => ch != '.') =
        rest.reverse ++ List.takeWhile (fun ch => ch != '.') [c] := by
      rw [List.reverse_cons, List.takeWhile_append, hall]
      exact if_pos rfl
    by_cases hcd : c = '.'
    · subst hcd
      have hone : List.takeWhile (fun ch => ch != '.') ['.'] = [] := by decide
      rw [hone, List.append_nil] at happ
      simp only [extFromName, happ]
      have hne1 : ¬ ((rest.reverse).length = (('.' : Char) :: rest).length) := by
        simp only [List.length_reverse, List.length_cons]
        omega
      have heq2 : (('.' : Char) :: rest).length = (rest.reverse).length + 1 := by
        simp only [List.length_reverse, List.length_cons]
      rw [if_neg hne1, if_pos heq2, if_neg hc]
    · have hone : List.takeWhile (fun ch => ch != '.') [c] = [c] := by
        rw [List.takeWhile_cons_of_pos (by simpa using hcd), List.takeWhile_nil]
      rw [hone] at happ
      simp only [extFromName, happ]
      have heq1 : (rest.reverse ++ [c]).length = (c :: rest).length := by
        simp only [List.length_append, List.length_reverse, List.length_cons, List.length_nil]
      rw [if_pos heq1, if_neg hc]

/-- C3 (amended): the extension used by automatic detection is the file
name's extension per Rust `Path::extension` semantics — the text after the
last dot of the final path segment when that dot is present and not the
segment's leading character, the empty string otherwise — used as-is,
with no case conversion. -/
theorem c3_extension_rust_semantics (p : String) : extensionOf p = amended_extension p := by
  simp only [extensionOf, amended_extension, fileName]
  cases hseg : ((splitSlash p.toList).filter (fun s => s != [] && s != ['.'])).getLast? with
  | none => rfl
  | some seg =>
    by_cases hdd : seg = ['.', '.']
    · simp [hdd]
    · cases seg with
      | nil => simp [hdd, extFromName]
      | cons c rest =>
        simp only [if_neg hdd, Option.some_bind, extFromName_cons]
        by_cases hm : ('.' : Char) ∈ rest
        · simp [hm]
        · simp [hm]

/-- C3 counterexample: the code does not lower-case the extension.  For
the path a.PY the spec's lower-cased extraction gives py but the code
extracts PY, and on a catalog that has a grammar named Python the
detection outcome differs from the lower-cased reading. -/
theorem c3_lowercase_counterexample :
    spec_extension "a.PY" = "py" ∧ extensionOf "a.PY" = "PY" ∧
    ¬ (extensionOf "a.PY" = spec_extension "a.PY") ∧
    detect_syntax ssEx "" "a.PY" = "PlainG" ∧
    detect_syntax ssEx "" "a.py" = "PythonG" :=
  ⟨by decide, by decide, by decide, by decide, by decide⟩

/-- C1: with no forced syntax, detection follows the deterministic
short-circuiting cascade in order: an override-table entry whose mapped
grammar name exists in the catalog wins first; otherwise extension lookup
in the catalog; otherwise first-line detection on the content; otherwise
the plain-text grammar. -/
theorem c1_detection_cascade (G : Type) (ss : SyntaxSet G) (content file_path : String) :
    (∀ g, (List.lookup (extensionOf file_path) get_custom_mappings).bind ss.find_syntax_by_name = some g →
      detect_syntax ss content file_path = g) ∧
    ((List.lookup (extensionOf file_path) get_custom_mappings).bind ss.find_syntax_by_name = none →
      ∀ g, ss.find_syntax_by_extension (extensionOf file_path) = some g →
        detect_syntax ss content file_path = g) ∧
    ((List.lookup (extensionOf file_path) get_custom_mappings).bind ss.find_syntax_by_name = none →
      ss.find_syntax_by_extension (extensionOf file_path) = none →
      ∀ g, ss.find_syntax_by_first_line content = some g →
        detect_syntax ss content file_path = g) ∧
    ((List.lookup (extensionOf file_path) get_custom_mappings).bind ss.find_syntax_by_name = none →
      ss.find_syntax_by_extension (extensionOf file_path) = none →
      ss.find_syntax_by_first_line content = none →
      detect_syntax ss content file_path = ss.find_syntax_plain_text) := by
  refine ⟨?_, ?_, ?_, ?_⟩
  · intro g h
    simp only [ detect_syntax, h]
  · intro h g h2
    simp only [ detect_syntax, h, h2]
  · intro h h2 g h3
    simp only [ detect_syntax, h, h2, h3]
  · intro h h2 h3
    simp only [ detect_syntax, h, h2, h3]

theorem c1_detection_cascade_witness :
    detect_syntax ssEx "" "x.py" = "PythonG" ∧
    detect_syntax ssEx "" "x.rs" = "RustG" ∧
    detect_syntax ssEx "#!sh" "x.zz" = "BashG" ∧
    detect_syntax ssEx "" "x.zz" = "PlainG" :=
  ⟨(c1_detection_cascade String ssEx "" "x.py").1 "PythonG" (by decide),
   (c1_detection_cascade String ssEx "" "x.rs").2.1 (by decide) "RustG" (by decide),
   (c1_detection_cascade String ssEx "#!sh" "x.zz").2.2.1 (by decide) (by decide) "BashG" (by decide),
   (c1_detection_cascade String ssEx "" "x.zz").2.2.2 (by decide) (by decide) (by decide)⟩

/-- C4: an extension present in the override table, with no forced
syntax, resolves to exactly the grammar whose display name the table maps
it to, provided that name exists in the catalog; in particular the table
maps py to Python and cfg to INI. -/
theorem c4_override_mapped_grammar (G : Type) (ss : SyntaxSet G) (content file_path ext name : String) (g : G) :
    List.lookup "py" get_custom_mappings = some "Python" ∧
    List.lookup "cfg" get_custom_mappings = some "INI" ∧
    (extensionOf file_path = ext →
      List.lookup ext get_custom_mappings = some name →
      ss.find_syntax_by_name name = some g →
      detect_syntax ss content file_path = g) := by
  refine ⟨by decide, by decide, ?_⟩
  intro h1 h2 h3
  subst h1
  simp [ detect_syntax, h2, h3]

theorem c4_override_mapped_grammar_witness :
    detect_syntax ssEx "" "settings.cfg" = "IniG" :=
  (c4_override_mapped_grammar String ssEx "" "settings.cfg" "cfg" "INI" "IniG").2.2
    (by decide) (by decide) (by decide)

/-- C5: automatic detection is total: when the extension matches nothing
in the override table or the catalog and first-line detection finds
nothing, detection returns the plain-text grammar; being a total
function, it never produces an error. -/
theorem c5_plain_text_total (G : Type) (ss : SyntaxSet G) (content file_path : String) :
    List.lookup (extensionOf file_path) get_custom_mappings = none →
    ss.find_syntax_by_extension (extensionOf file_path) = none →
    ss.find_syntax_by_first_line content = none →
    detect_syntax ss content file_path = ss.find_syntax_plain_text := by
  intro h1 h2 h3
  simp [ detect_syntax, h1, h2, h3]

theorem c5_plain_text_total_witness :
    detect_syntax ssEx "hello" "notes.weird" = ssEx.find_syntax_plain_text :=
  c5_plain_text_total String ssEx "hello" "notes.weird" (by decide) (by decide) (by decide)

/-- C9 counterexample: the CLI cascade in main omits the override-table
step, so on a catalog where the override of extension py to the name
Python resolves but plain extension lookup does not, the two cascades
pick different grammars. -/
theorem c9_main_lib_differ :
    main_detect ssEx "" "a.py" = "PlainG" ∧
    detect_syntax ssEx "" "a.py" = "PythonG" ∧
    ¬ (main_detect ssEx "" "a.py" = detect_syntax ssEx "" "a.py") :=
  ⟨by decide, by decide, by decide⟩

/-- C9 (amended): the CLI's inline detection in main equals the library's
detect_syntax exactly when the override step does not fire: whenever the
override-table lookup of the extension followed by catalog name lookup
yields no grammar, the two cascades agree. -/
theorem c9_agree_without_override (G : Type) (ss : SyntaxSet G) (content file_path : String) :
    (List.lookup (extensionOf file_path) get_custom_mappings).bind ss.find_syntax_by_name = none →
    main_detect ss content file_path = detect_syntax ss content file_path := by
  intro h
  simp only [main_detect, detect_syntax, h]

theorem c9_agree_without_override_witness :
    main_detect ssEx "" "x.rs" = detect_syntax ssEx "" "x.rs" :=
  c9_agree_without_override String ssEx "" "x.rs" (by decide)

/-- C2: with a forced syntax name, highlight_content starts the
highlighting loop on exactly the catalog grammar of that name — the
right-hand side mentions neither the file path nor the detection cascade,
so the override table and all automatic detection are bypassed — and when
the name is absent from the catalog the result is the Syntax-not-found
error, never a silent fallback grammar. -/
theorem c2_forced_name (G T S Sty : Type) (hl : Highlighter G T S Sty)
    (content file_path theme_name n : String) (b : Bool) (th : T)
    (hth : hl.themes theme_name = some th) :
    (∀ g, hl.syntax_set.find_syntax_by_name n = some g →
      highlight_content hl content file_path ⟨theme_name, b, some n⟩ =
        run_lines hl b (hl.new_highlight_lines g th) 0 (linesWithEndings content)) ∧
    (hl.syntax_set.find_syntax_by_name n = none →
      highlight_content hl content file_path ⟨theme_name, b, some n⟩ =
        Except.error ("Syntax " ++ n ++ " not found")) := by
  constructor
  · intro g hg
    simp only [highlight_content, hth, hg]
  · intro hn
    simp only [highlight_content, hth, hn]

theorem c2_forced_name_witness :
    highlight_content hlEx "x" "p.rs" ⟨"dark", false, some "Python"⟩ =
      run_lines hlEx false (hlEx.new_highlight_lines "PythonG" "DARK") 0 (linesWithEndings "x") ∧
    highlight_content hlEx "x" "p.rs" ⟨"dark", false, some "Nope"⟩ =
      Except.error ("Syntax " ++ "Nope" ++ " not found") :=
  ⟨(c2_forced_name String String Nat Unit hlEx "x" "p.rs" "dark" "Python" false "DARK" rfl).1
      "PythonG" rfl,
   (c2_forced_name String String Nat Unit hlEx "x" "p.rs" "dark" "Nope" false "DARK" rfl).2 rfl⟩

/-- C6: a theme name absent from the catalog makes highlight_content fail
with the Theme-not-found error for every content, path, forced-syntax
setting and tokenizer behaviour: no fallback theme is substituted and no
tokenization result is produced. -/
theorem c6_theme_not_found (G T S Sty : Type) (hl : Highlighter G T S Sty)
    (content file_path : String) (config : HighlighterConfig)
    (h : hl.themes config.theme = none) :
    highlight_content hl content file_path config =
      Except.error ("Theme " ++ config.theme ++ " not found") := by
  simp only [highlight_content, h]

theorem c6_theme_not_found_witness :
    highlight_content hlEx "print" "a.py" ⟨"does-not-exist", true, none⟩ =
      Except.error ("Theme " ++ "does-not-exist" ++ " not found") :=
  c6_theme_not_found String String Nat Unit hlEx "print" "a.py"
    ⟨"does-not-exist", true, none⟩ rfl

/-- C10: on empty content, highlight_content succeeds with the empty
string whenever the theme exists and any forced syntax name exists in the
catalog: there are no lines, so nothing is tokenized and no line-number
prefix is emitted even when line numbers are enabled. -/
theorem c10_empty_content (G T S Sty : Type) (hl : Highlighter G T S Sty)
    (file_path theme_name : String) (b : Bool) (force : Option String) (th : T)
    (hth : hl.themes theme_name = some th)
    (hforce : ∀ n, force = some n → ∃ g, hl.syntax_set.find_syntax_by_name n = some g) :
    highlight_content hl "" file_path ⟨theme_name, b, force⟩ = Except.ok "" := by
  have hlines : linesWithEndings "" = [] := rfl
  cases force with
  | none =>
    simp only [highlight_content, hth, hlines, run_lines]
  | some n =>
    obtain ⟨g, hg⟩ := hforce n rfl
    simp only [highlight_content, hth, hg, hlines, run_lines]

theorem c10_empty_content_witness :
    highlight_content hlEx "" "a.py" ⟨"dark", true, none⟩ = Except.ok "" :=
  c10_empty_content String String Nat Unit hlEx "a.py" "dark" true none "DARK" rfl
    (fun _ h => nomatch h)

lemma str_append_assoc (a b c : String) : (a ++ b) ++ c = a ++ (b ++ c) := by
  apply String.ext
  simp only [String.data_append, List.append_assoc]

lemma str_empty_append (s : String) : "" ++ s = s := by
  apply String.ext
  simp only [String.data_append]
  rfl

lemma tokenize_lines_length (hl : Highlighter G T S Sty) :
    ∀ (lines : List String) (st : S) (escs : List String),
      tokenize_lines hl st lines = some escs → escs.length = lines.length := by
  intro lines
  induction lines with
  | nil =>
    intro st escs h
    simp only [tokenize_lines] at h
    injection h with h
    subst h
    rfl
  | cons l ls ih =>
    intro st escs h
    simp only [tokenize_lines] at h
    split at h
    · cases h
    · split at h
      · cases h
      · rename_i rest htok
        injection h with h
        subst h
        simp [ih _ rest htok]

lemma run_lines_of_tokenize (hl : Highlighter G T S Sty) (b : Bool) :
    ∀ (lines : List String) (st : S) (idx : Nat) (escs : List String),
      tokenize_lines hl st lines = some escs →
      run_lines hl b st idx lines =
        Except.ok (concatAll (List.zipWith
          (fun i e => (if b then formatLineNum i else "") ++ e)
          (List.range' (idx + 1) lines.length) escs)) := by
  intro lines
  induction lines with
  | nil =>
    intro st idx escs h
    simp only [tokenize_lines] at h
    injection h with h
    subst h
    simp [run_lines, concatAll]
  | cons l ls ih =>
    intro st idx escs h
    simp only [tokenize_lines] at h
    split at h
    · cases h
    · rename_i st2 rs hline
      split at h
      · cases h
      · rename_i rest htok
        injection h with h
        subst h
        simp only [run_lines, hline, ih st2 (idx + 1) rest htok]
        have hr : List.range' (idx + 1) ((l :: ls).length) =
            (idx + 1) :: List.range' (idx + 2) ls.length := rfl
        rw [hr]
        simp only [List.zipWith_cons_cons, concatAll, str_append_assoc]

lemma run_lines_error_of_tokenize_none (hl : Highlighter G T S Sty) (b : Bool) :
    ∀ (lines : List String) (st : S) (idx : Nat),
      tokenize_lines hl st lines = none →
      run_lines hl b st idx lines = Except.error "Failed to highlight line" := by
  intro lines
  induction lines with
  | nil =>
    intro st idx h
    simp [tokenize_lines] at h
  | cons l ls ih =>
    intro st idx h
    simp only [tokenize_lines] at h
    split at h
    · rename_i hline
      simp [run_lines, hline]
    · rename_i st2 rs hline
      split at h
      · rename_i htok
        simp only [run_lines, hline, ih st2 (idx + 1) htok]
      · cases h

/-- A successful highlighting run determines the per-line escaped
payloads; the resolution of theme, grammar and initial parse state does
not depend on the line-number flag, so the same initial state also drives
the run with the other flag value. -/
lemma highlight_content_toggle (hl : Highlighter G T S Sty)
    (content file_path theme_name : String) (force : Option String)
    (b b2 : Bool) (out : String)
    (h : highlight_content hl content file_path ⟨theme_name, b, force⟩ = Except.ok out) :
    ∃ st0 escs,
      tokenize_lines hl st0 (linesWithEndings content) = some escs ∧
      out = concatAll (List.zipWith
        (fun i e => (if b then formatLineNum i else "") ++ e)
        (List.range' 1 (linesWithEndings content).length) escs) ∧
      highlight_content hl content file_path ⟨theme_name, b2, force⟩ =
        run_lines hl b2 st0 0 (linesWithEndings content) := by
  cases force with
  | none =>
    cases hth : hl.themes theme_name with
    | none => simp [highlight_content, hth] at h
    | some th =>
      simp only [highlight_content, hth] at h ⊢
      cases htok : tokenize_lines hl
          (hl.new_highlight_lines ( detect_syntax hl.syntax_set content file_path) th)
          (linesWithEndings content) with
      | none =>
        rw [run_lines_error_of_tokenize_none hl b _ _ 0 htok] at h
        cases h
      | some escs =>
        rw [run_lines_of_tokenize hl b _ _ 0 escs htok] at h
        injection h with h
        exact ⟨_, escs, htok, h.symm, rfl⟩
  | some n =>
    cases hth : hl.themes theme_name with
    | none => simp [highlight_content, hth] at h
    | some th =>
      cases hg : hl.syntax_set.find_syntax_by_name n with
      | none => simp [highlight_content, hth, hg] at h
      | some g =>
        simp only [highlight_content, hth, hg] at h ⊢
        cases htok : tokenize_lines hl (hl.new_highlight_lines g th)
            (linesWithEndings content) with
        | none =>
          rw [run_lines_error_of_tokenize_none hl b _ _ 0 htok] at h
          cases h
        | some escs =>
          rw [run_lines_of_tokenize hl b _ _ 0 escs htok] at h
          injection h with h
          exact ⟨_, escs, htok, h.symm, rfl⟩

lemma zipWith_no_prefix : ∀ (escs : List String) (a : Nat),
    List.zipWith (fun i e => (if false then formatLineNum i else "") ++ e)
      (List.range' a escs.length) escs = escs := by
  intro escs
  induction escs with
  | nil => intro a; rfl
  | cons e es ih =>
    intro a
    have hr : List.range' a ((e :: es).length) = a :: List.range' (a + 1) es.length := rfl
    rw [hr]
    simp only [List.zipWith_cons_cons, ih (a + 1)]
    simp [str_empty_append]

/-- C7: with line numbers enabled, a successful run's output is the
concatenation, line by line, of the prefix for the numbers 1..N in order
(N the number of lines, no gaps or repeats) followed by that line's
escaped payload; the prefix is the number right-aligned and space-padded
to minimum width 4 followed by a space, a bar and a space, and numbers
wider than 4 digits widen the field rather than being truncated. -/
theorem c7_line_number_sequence (G T S Sty : Type) (hl : Highlighter G T S Sty)
    (content file_path theme_name : String) (force : Option String) (out : String)
    (h : highlight_content hl content file_path ⟨theme_name, true, force⟩ = Except.ok out) :
    ∃ escs : List String,
      escs.length = (linesWithEndings content).length ∧
      out = concatAll (List.zipWith (fun i e => formatLineNum i ++ e)
        (List.range' 1 (linesWithEndings content).length) escs) ∧
      (∀ m : Nat, formatLineNum m = padLeft4 (Nat.repr m) ++ " | ") ∧
      (∀ s : String, (padLeft4 s).length = max 4 s.length) ∧
      (∀ s : String, 4 ≤ s.length → padLeft4 s = s) := by
  obtain ⟨st0, escs, htok, hout, -⟩ :=
    highlight_content_toggle hl content file_path theme_name force true true out h
  refine ⟨escs, tokenize_lines_length hl _ st0 escs htok, by simpa using hout, fun m => rfl, ?_, ?_⟩
  · intro s
    have : (padLeft4 s).length = (4 - s.length) + s.length := by
      simp [padLeft4, String.length_append, String.length_mk, List.length_replicate]
    omega
  · intro s hs
    apply String.ext
    simp [padLeft4, String.data_append, Nat.sub_eq_zero_of_le hs]

theorem c7_line_number_sequence_witness :
    ∃ escs : List String,
      escs.length = (linesWithEndings "a\nb").length ∧
      "   1 | <a\n>   2 | <b>" = concatAll (List.zipWith (fun i e => formatLineNum i ++ e)
        (List.range' 1 (linesWithEndings "a\nb").length) escs) ∧
      (∀ m : Nat, formatLineNum m = padLeft4 (Nat.repr m) ++ " | ") ∧
      (∀ s : String, (padLeft4 s).length = max 4 s.length) ∧
      (∀ s : String, 4 ≤ s.length → padLeft4 s = s) :=
  c7_line_number_sequence String String Nat Unit hlEx "a\nb" "f.zz" "dark" none
    "   1 | <a\n>   2 | <b>" rfl

/-- C8: toggling line numbers off changes the output exactly by dropping
each line's numeric prefix and separator: a successful run with numbers
is the concatenation of prefix-plus-payload per line, and the run with
numbers off succeeds with the concatenation of the same payloads. -/
theorem c8_toggle_line_numbers (G T S Sty : Type) (hl : Highlighter G T S Sty)
    (content file_path theme_name : String) (force : Option String) (out : String)
    (h : highlight_content hl content file_path ⟨theme_name, true, force⟩ = Except.ok out) :
    ∃ escs outF,
      highlight_content hl content file_path ⟨theme_name, false, force⟩ = Except.ok outF ∧
      outF = concatAll escs ∧
      escs.length = (linesWithEndings content).length ∧
      out = concatAll (List.zipWith (fun i e => formatLineNum i ++ e)
        (List.range' 1 escs.length) escs) := by
  obtain ⟨st0, escs, htok, hout, hrun⟩ :=
    highlight_content_toggle hl content file_path theme_name force true false out h
  have hlen := tokenize_lines_length hl _ st0 escs htok
  refine ⟨escs, concatAll escs, ?_, rfl, hlen, ?_⟩
  · rw [hrun, run_lines_of_tokenize hl false _ st0 0 escs htok]
    rw [show (0 : Nat) + 1 = 1 from rfl, ← hlen, zipWith_no_prefix escs 1]
  · rw [hlen]
    simpa using hout

theorem c8_toggle_line_numbers_witness :
    ∃ escs outF,
      highlight_content hlEx "x\ny\n" "q.zz" ⟨"dark", false, none⟩ = Except.ok outF ∧
      outF = concatAll escs ∧
      escs.length = (linesWithEndings "x\ny\n").length ∧
      "   1 | <x\n>   2 | <y\n>" = concatAll (List.zipWith (fun i e => formatLineNum i ++ e)
        (List.range' 1 escs.length) escs) :=
  c8_toggle_line_numbers String String Nat Unit hlEx "x\ny\n" "q.zz" "dark" none
    "   1 | <x\n>   2 | <y\n>" rfl

end Ccat
